import Mathlib

/-!
# Verification of the `APIFilters` query-filter builder (jobbee-api)

Shallow embedding of `utils/apiFilters.js` (the `APIFilters` class): a
fluent builder that narrows an abstract queryable handle through five
stages — `filter`, `sort`, `limitFields`, `searchByQuery`, `pagination` —
driven by a raw HTTP query-string parameter mapping.

The embedding follows the JavaScript source statement by statement:
* the `filter()` pipeline `JSON.stringify` → regex replace
  `/\b(gt|gte|lt|lte|in)\b/g` with `$`-prefix → `JSON.parse` is embedded
  as a serializer, a character-level scanner implementing the JS regex
  semantics (ordered alternation with word boundaries), and a JSON parser
  for the object fragment the serializer emits;
* JS truthiness (`undefined` and `""` are falsy), `parseInt(x, 10) || d`
  defaulting, and `String.prototype.split(sep).join(rep)` are embedded
  as executable functions;
* a stage that would raise a `TypeError` in JS (calling `.split` on a
  non-string) returns `none`.
-/

/-- A raw query-string value: a plain string, or a one-level nested
object of string values (as produced by Express for `field[op]=value`). -/
inductive PVal where
  | str : String → PVal
  | obj : List (String × String) → PVal
deriving DecidableEq, Repr

/-- The raw parameter mapping (`req.query`): insertion-ordered
association list from parameter name to value. -/
abbrev RawParams := List (String × PVal)

/-- A structured predicate handed to the engine's `find` — same shape as
a parsed parameter mapping. -/
abbrev Predicate := List (String × PVal)

/-- JS `\w` word character: `[A-Za-z0-9_]`. -/
def isWordChar (c : Char) : Bool :=
  (('a' ≤ c) && (c ≤ 'z')) || (('A' ≤ c) && (c ≤ 'Z')) ||
  (('0' ≤ c) && (c ≤ '9')) || (c == '_')

/-- `\b` holds between the end of a token and what follows iff the input
ends or the next character is not a word character. -/
def boundaryAfter : List Char → Bool
  | [] => true
  | c :: _ => !(isWordChar c)

def tokGT : List Char := ['g', 't']
def tokGTE : List Char := ['g', 't', 'e']
def tokLT : List Char := ['l', 't']
def tokLTE : List Char := ['l', 't', 'e']
def tokIN : List Char := ['i', 'n']

/-- Does token `t` match at the head of `cs` with a word boundary after
it?  (The boundary before is tracked by the scanner.) -/
def tokMatches (t cs : List Char) : Bool :=
  (cs.take t.length == t) && boundaryAfter (cs.drop t.length)

/-- The regex alternation `(gt|gte|lt|lte|in)` in JS source order: the
engine tries `gt` first and backtracks to `gte` when the trailing `\b`
fails, etc.  At most one alternative can fully match at a position. -/
def findTok (cs : List Char) : Option (List Char) :=
  if tokMatches tokGT cs then some tokGT
  else if tokMatches tokGTE cs then some tokGTE
  else if tokMatches tokLT cs then some tokLT
  else if tokMatches tokLTE cs then some tokLTE
  else if tokMatches tokIN cs then some tokIN
  else none

/-- Fuelled scanner for
`str.replace(/\b(gt|gte|lt|lte|in)\b/g, m => "$" + m)`: `bnd` records
whether a word boundary holds before the current position (true at the
start of input and after a non-word character). -/
def replAuxF : Nat → Bool → List Char → List Char
  | 0, _, cs => cs
  | _ + 1, _, [] => []
  | n + 1, bnd, c :: rest =>
    match (if bnd then findTok (c :: rest) else none) with
    | some t => '$' :: t ++ replAuxF n false (List.drop t.length (c :: rest))
    | none => c :: replAuxF n (!(isWordChar c)) rest

/-- The global word-boundary token replacement, on character lists. -/
def replAux (bnd : Bool) (cs : List Char) : List Char :=
  replAuxF cs.length bnd cs

/-- The token replacement applied to one string. -/
def rwS (s : String) : String := ⟨replAux true s.data⟩

/-- The token replacement, applied structurally to a value. -/
def rwVal : PVal → PVal
  | .str s => .str (rwS s)
  | .obj l => .obj (l.map fun p => (rwS p.1, rwS p.2))

/-- The token replacement, applied structurally to every key and value
of a parameter mapping. -/
def rwObj (q : RawParams) : RawParams := q.map fun p => (rwS p.1, rwVal p.2)

/-! ## JSON serialization (`JSON.stringify`) of the parameter object -/

/-- `JSON.stringify` escaping of one character (quote and backslash;
control characters do not occur in the inputs considered). -/
def escChar (c : Char) : List Char :=
  if c = '"' ∨ c = '\\' then ['\\', c] else [c]

def escapeC (cs : List Char) : List Char := (cs.map escChar).flatten

def quoteC (cs : List Char) : List Char := '"' :: escapeC cs ++ ['"']

/-- Comma-join of already-serialized members. -/
def joinCommas : List (List Char) → List Char
  | [] => []
  | [x] => x
  | x :: y :: ys => x ++ ',' :: joinCommas (y :: ys)

def strPairText (p : String × String) : List Char :=
  quoteC p.1.data ++ ':' :: quoteC p.2.data

def innerObjText (l : List (String × String)) : List Char :=
  '{' :: joinCommas (l.map strPairText) ++ ['}']

def valText : PVal → List Char
  | .str s => quoteC s.data
  | .obj l => innerObjText l

def pairText (p : String × PVal) : List Char :=
  quoteC p.1.data ++ ':' :: valText p.2

/-- `JSON.stringify` of the whole parameter object. -/
def objText (q : RawParams) : List Char :=
  '{' :: joinCommas (q.map pairText) ++ ['}']

/-! ## JSON parsing (`JSON.parse`) of the rewritten text -/

/-- Parse a JSON string body after the opening quote; returns the
decoded content and the remainder after the closing quote. -/
def parseStrAux : List Char → Option (List Char × List Char)
  | [] => none
  | c :: rest =>
    if c = '"' then some ([], rest)
    else if c = '\\' then
      match rest with
      | [] => none
      | d :: rest' =>
        if d = '"' ∨ d = '\\' then
          match parseStrAux rest' with
          | some (s, r) => some (d :: s, r)
          | none => none
        else none
    else
      match parseStrAux rest with
      | some (s, r) => some (c :: s, r)
      | none => none

/-- Parse the members of a nested (string-valued) object, after its
opening brace; fuelled by the number of remaining members. -/
def parseInnerF : Nat → List Char → Option (List (String × String) × List Char)
  | 0, _ => none
  | n + 1, cs =>
    match cs with
    | [] => none
    | c :: rest =>
      if c = '"' then
        match parseStrAux rest with
        | some (k, r1) =>
          match r1 with
          | [] => none
          | d :: r2 =>
            if d = ':' then
              match r2 with
              | [] => none
              | e :: r3 =>
                if e = '"' then
                  match parseStrAux r3 with
                  | some (v, r4) =>
                    match r4 with
                    | [] => none
                    | f :: r5 =>
                      if f = ',' then
                        match parseInnerF n r5 with
                        | some (l, r) => some ((⟨k⟩, ⟨v⟩) :: l, r)
                        | none => none
                      else if f = '}' then some ([(⟨k⟩, ⟨v⟩)], r5)
                      else none
                  | none => none
                else none
            else none
        | none => none
      else none

/-- Parse one JSON value: a string, or a one-level nested object. -/
def parseVal (cs : List Char) : Option (PVal × List Char) :=
  match cs with
  | [] => none
  | c :: rest =>
    if c = '"' then
      match parseStrAux rest with
      | some (s, r) => some (.str ⟨s⟩, r)
      | none => none
    else if c = '{' then
      match rest with
      | [] => none
      | d :: rest' =>
        if d = '}' then some (.obj [], rest')
        else
          match parseInnerF rest.length rest with
          | some (l, r) => some (.obj l, r)
          | none => none
    else none

/-- Parse the members of the top-level object, after its opening brace;
fuelled by the number of remaining members. -/
def parseTopF : Nat → List Char → Option (Predicate × List Char)
  | 0, _ => none
  | n + 1, cs =>
    match cs with
    | [] => none
    | c :: rest =>
      if c = '"' then
        match parseStrAux rest with
        | some (k, r1) =>
          match r1 with
          | [] => none
          | d :: r2 =>
            if d = ':' then
              match parseVal r2 with
              | some (v, r3) =>
                match r3 with
                | [] => none
                | f :: r4 =>
                  if f = ',' then
                    match parseTopF n r4 with
                    | some (l, r) => some ((⟨k⟩, v) :: l, r)
                    | none => none
                  else if f = '}' then some ([(⟨k⟩, v)], r4)
                  else none
              | none => none
            else none
        | none => none
      else none

/-- `JSON.parse` for the object fragment `JSON.stringify` emits here;
`none` models a thrown `SyntaxError`. -/
def jsonParse (cs : List Char) : Option Predicate :=
  match cs with
  | [] => none
  | c :: rest =>
    if c = '{' then
      match rest with
      | [] => none
      | d :: rest' =>
        if d = '}' then (if rest' = [] then some [] else none)
        else
          match parseTopF rest.length rest with
          | some (l, r) => if r = [] then some l else none
          | none => none
    else none

/-! ## The builder's helper computations -/

/-- The reserved control keys removed before field filtering
(`removeFields` in the source). -/
def reservedKeys : List String := ["sort", "fields", "q", "limit", "page"]

/-- `const queryCopy = {...this.queryStr}` followed by
`removeFields.forEach(el => delete queryCopy[el])`. -/
def removeReserved (q : RawParams) : RawParams :=
  q.filter fun p => !(reservedKeys.contains p.1)

/-- The whole `filter()` predicate pipeline:
`JSON.parse(JSON.stringify(queryCopy).replace(/\b(gt|gte|lt|lte|in)\b/g, m => "$" + m))`. -/
def filterPred (rp : RawParams) : Option Predicate :=
  jsonParse (replAux true (objText (removeReserved rp)))

/-- `String.prototype.split(sep)` for a one-character separator; the
result list is always non-empty. -/
def splitOnChar (sep : Char) : List Char → List (List Char)
  | [] => [[]]
  | c :: rest =>
    match splitOnChar sep rest with
    | [] => [[]]
    | g :: gs => if c = sep then [] :: g :: gs else (c :: g) :: gs

/-- `Array.prototype.join(rep)` for a one-character joiner. -/
def joinChar (rep : Char) : List (List Char) → List Char
  | [] => []
  | [x] => x
  | x :: y :: ys => x ++ rep :: joinChar rep (y :: ys)

/-- `s.split(sep).join(rep)` on a string. -/
def splitJoin (sep rep : Char) (s : String) : String :=
  ⟨joinChar rep (splitOnChar sep s.data)⟩

/-- JS `parseInt(s, 10)`: skip leading whitespace, optional sign,
longest leading run of decimal digits; `none` models `NaN`. -/
def digitsVal (cs : List Char) : Option Nat :=
  let ds := cs.takeWhile fun c => ('0' ≤ c) && (c ≤ '9')
  if ds = [] then none
  else some (ds.foldl (fun a c => a * 10 + (c.toNat - 48)) 0)

def isJsSpace (c : Char) : Bool :=
  (c == ' ') || (c == '\t') || (c == '\n') || (c == '\r')

def jsParseInt10 (s : String) : Option Int :=
  match s.data.dropWhile isJsSpace with
  | '-' :: rest => (digitsVal rest).map fun n => -(n : Int)
  | '+' :: rest => (digitsVal rest).map fun n => (n : Int)
  | cs => (digitsVal cs).map fun n => (n : Int)

/-- Look a parameter up in the raw mapping (`this.queryStr.k`). -/
def getParam (rp : RawParams) (k : String) : Option PVal := rp.lookup k

/-- `parseInt(v, 10) || d`: `undefined`, objects and unparseable strings
give `NaN` (falsy), and a parsed `0` is also falsy — all fall back to
`d`. -/
def parseIntOr (v : Option PVal) (d : Int) : Int :=
  match v with
  | some (.str s) =>
    match jsParseInt10 s with
    | some n => if n = 0 then d else n
    | none => d
  | _ => d

/-- `const page = parseInt(this.queryStr.page, 10) || 1`. -/
def pageOf (rp : RawParams) : Int := parseIntOr (getParam rp "page") 1

/-- `const limit = parseInt(this.queryStr.limit, 10) || 10`. -/
def limitOf (rp : RawParams) : Int := parseIntOr (getParam rp "limit") 10

/-! ## The queryable handle and the builder

Modelled from the spec: the `QueryableHandle` collaborator (spec §3) is
an external storage-layer builder with operations `find` (predicate
narrowing — accumulates), `sort`, `select`, `skip`, `limit`; per the
spec's contract, "last write per stage wins, stages are independent". -/

structure QueryHandle where
  /-- Accumulated narrowing predicates from `find` calls (conjunction). -/
  conds : List Predicate
  /-- The active sort directive (last write wins). -/
  sortSpec : Option String
  /-- The active projection directive (last write wins). -/
  selectSpec : Option String
  /-- The active skip count (last write wins). -/
  skipVal : Option Int
  /-- The active limit (last write wins). -/
  limitVal : Option Int
deriving DecidableEq, Repr

def QueryHandle.empty : QueryHandle := ⟨[], none, none, none, none⟩

def QueryHandle.find (h : QueryHandle) (p : Predicate) : QueryHandle :=
  { h with conds := p :: h.conds }

def QueryHandle.sortQ (h : QueryHandle) (s : String) : QueryHandle :=
  { h with sortSpec := some s }

def QueryHandle.select (h : QueryHandle) (s : String) : QueryHandle :=
  { h with selectSpec := some s }

def QueryHandle.skip (h : QueryHandle) (n : Int) : QueryHandle :=
  { h with skipVal := some n }

def QueryHandle.limit (h : QueryHandle) (n : Int) : QueryHandle :=
  { h with limitVal := some n }

/-- The builder: the queryable handle and the raw-parameter snapshot
taken at construction. -/
structure APIFilters where
  query : QueryHandle
  queryStr : RawParams
deriving DecidableEq, Repr

/-- `filter()` body on the handle: `none` models a thrown error from
`JSON.parse`. -/
def filterSt (rp : RawParams) (q : QueryHandle) : Option QueryHandle :=
  match filterPred rp with
  | some p => some (q.find p)
  | none => none

/-- `sort()` body on the handle.  `if (this.queryStr.sort)`: `undefined`
and `""` are falsy; an object value is truthy but `.split` on it throws
(`none`). -/
def sortSt (rp : RawParams) (q : QueryHandle) : Option QueryHandle :=
  match getParam rp "sort" with
  | some (.str s) =>
    if s = "" then some (q.sortQ "-postingDate")
    else some (q.sortQ (splitJoin ',' ' ' s))
  | some (.obj _) => none
  | none => some (q.sortQ "-postingDate")

/-- `limitFields()` body on the handle. -/
def limitFieldsSt (rp : RawParams) (q : QueryHandle) : Option QueryHandle :=
  match getParam rp "fields" with
  | some (.str s) =>
    if s = "" then some (q.select "-__v")
    else some (q.select (splitJoin ',' ' ' s))
  | some (.obj _) => none
  | none => some (q.select "-__v")

/-- `searchByQuery()` body on the handle: hyphens become spaces and the
phrase is wrapped in literal double quotes inside `$text.$search`. -/
def searchSt (rp : RawParams) (q : QueryHandle) : Option QueryHandle :=
  match getParam rp "q" with
  | some (.str s) =>
    if s = "" then some q
    else
      some (q.find [("$text", .obj [("$search", "\"" ++ splitJoin '-' ' ' s ++ "\"")])])
  | some (.obj _) => none
  | none => some q

/-- `pagination()` body on the handle: `skip((page-1)*limit).limit(limit)`. -/
def paginationSt (rp : RawParams) (q : QueryHandle) : Option QueryHandle :=
  some ((q.skip ((pageOf rp - 1) * limitOf rp)).limit (limitOf rp))

def APIFilters.filter (af : APIFilters) : Option APIFilters :=
  (filterSt af.queryStr af.query).map fun q => { af with query := q }

def APIFilters.sort (af : APIFilters) : Option APIFilters :=
  (sortSt af.queryStr af.query).map fun q => { af with query := q }

def APIFilters.limitFields (af : APIFilters) : Option APIFilters :=
  (limitFieldsSt af.queryStr af.query).map fun q => { af with query := q }

def APIFilters.searchByQuery (af : APIFilters) : Option APIFilters :=
  (searchSt af.queryStr af.query).map fun q => { af with query := q }

def APIFilters.pagination (af : APIFilters) : Option APIFilters :=
  (paginationSt af.queryStr af.query).map fun q => { af with query := q }

/-- The five stage methods, for reasoning about arbitrary call chains. -/
inductive Stage where
  | filter | sort | limitFields | searchByQuery | pagination
deriving DecidableEq, Repr

def runStage : Stage → APIFilters → Option APIFilters
  | .filter, af => af.filter
  | .sort, af => af.sort
  | .limitFields, af => af.limitFields
  | .searchByQuery, af => af.searchByQuery
  | .pagination, af => af.pagination

def runStages : List Stage → APIFilters → Option APIFilters
  | [], af => some af
  | s :: rest, af =>
    match runStage s af with
    | some af' => runStages rest af'
    | none => none

/-! ## Engine-side interpretation of directives

Modelled from the spec: the storage engine's reading of a sort
directive (spec §4.1 `sort()`: comma-separated fields, `-` prefix for
descending, space-delimited in engine form) and of a projection
directive (spec §4.1 `limitFields()`: inclusion keeps only the named
fields plus the identifier; an all-`-` directive is an exclusion that
hides the named fields). -/

inductive SortDir where
  | asc | desc
deriving DecidableEq, Repr

def interpSortField (cs : List Char) : String × SortDir :=
  match cs with
  | '-' :: rest => (⟨rest⟩, .desc)
  | _ => (⟨cs⟩, .asc)

def interpSort (spec : String) : List (String × SortDir) :=
  (((splitOnChar ' ' spec.data).filter fun t => !t.isEmpty).map interpSortField)

inductive Projection where
  | incl : List String → Projection
  | excl : List String → Projection
deriving DecidableEq, Repr

def interpSelect (spec : String) : Projection :=
  let toks := (splitOnChar ' ' spec.data).filter fun t => !t.isEmpty
  if toks.all fun t => t.head? == some '-' then
    .excl (toks.map fun t => ⟨t.tail⟩)
  else
    .incl ((toks.filter fun t => !(t.head? == some '-')).map fun t => ⟨t⟩)

/-- Which fields of a record survive a projection: an inclusion keeps
the named fields plus the identifier `_id`; an exclusion hides exactly
the named fields. -/
def exposedFields (p : Projection) (recFields : List String) : List String :=
  match p with
  | .incl fs => recFields.filter fun f => fs.contains f || (f == "_id")
  | .excl fs => recFields.filter fun f => !(fs.contains f)

/-! ## Plainness: strings that JSON serialization leaves unescaped -/

def plainChar (c : Char) : Bool := (c != '"') && (c != '\\')

def plainL (cs : List Char) : Bool := cs.all plainChar

def plainStr (s : String) : Bool := plainL s.data

def plainVal : PVal → Bool
  | .str s => plainStr s
  | .obj l => l.all fun p => plainStr p.1 && plainStr p.2

def plainParams (rp : RawParams) : Bool :=
  rp.all fun p => plainStr p.1 && plainVal p.2

/-! ## Scanner lemmas -/

/-- The five alternation tokens. -/
def isTok (t : List Char) : Prop :=
  t = tokGT ∨ t = tokGTE ∨ t = tokLT ∨ t = tokLTE ∨ t = tokIN

theorem isTok_word {t : List Char} (h : isTok t) :
    t ≠ [] ∧ t.all isWordChar = true := by
  rcases h with h | h | h | h | h <;> subst h <;> exact ⟨by decide, by decide⟩

theorem findTok_some {cs t : List Char} (h : findTok cs = some t) :
    tokMatches t cs = true ∧ isTok t := by
  unfold findTok at h
  repeat' split at h
  all_goals simp_all [isTok]

theorem tokMatches_take {t cs : List Char} (h : tokMatches t cs = true) :
    cs.take t.length = t ∧ boundaryAfter (cs.drop t.length) = true := by
  unfold tokMatches at h
  rw [Bool.and_eq_true, beq_iff_eq] at h
  exact h

theorem tokMatches_le_length {t cs : List Char} (h : tokMatches t cs = true) :
    t.length ≤ cs.length := by
  have h1 := (tokMatches_take h).1
  have h2 := congrArg List.length h1
  simp [List.length_take] at h2
  omega

theorem tokMatches_head {t cs : List Char} {c d : Char} {t' : List Char}
    (ht : t = d :: t') (h : tokMatches t (c :: cs) = true) : c = d := by
  subst ht
  have h1 := (tokMatches_take h).1
  simp [List.take_succ_cons] at h1
  exact h1.1

theorem findTok_nonword {c : Char} {cs : List Char} (h : isWordChar c = false) :
    findTok (c :: cs) = none := by
  have hg : c ≠ 'g' := by rintro rfl; simp [isWordChar] at h
  have hl : c ≠ 'l' := by rintro rfl; simp [isWordChar] at h
  have hi : c ≠ 'i' := by rintro rfl; simp [isWordChar] at h
  unfold findTok
  have m1 : tokMatches tokGT (c :: cs) = false := by
    cases hm : tokMatches tokGT (c :: cs)
    · rfl
    · exact absurd (tokMatches_head (by rfl) hm) hg
  have m2 : tokMatches tokGTE (c :: cs) = false := by
    cases hm : tokMatches tokGTE (c :: cs)
    · rfl
    · exact absurd (tokMatches_head (by rfl) hm) hg
  have m3 : tokMatches tokLT (c :: cs) = false := by
    cases hm : tokMatches tokLT (c :: cs)
    · rfl
    · exact absurd (tokMatches_head (by rfl) hm) hl
  have m4 : tokMatches tokLTE (c :: cs) = false := by
    cases hm : tokMatches tokLTE (c :: cs)
    · rfl
    · exact absurd (tokMatches_head (by rfl) hm) hl
  have m5 : tokMatches tokIN (c :: cs) = false := by
    cases hm : tokMatches tokIN (c :: cs)
    · rfl
    · exact absurd (tokMatches_head (by rfl) hm) hi
  simp [m1, m2, m3, m4, m5]

theorem replAuxF_fuel : ∀ (n m : Nat) (bnd : Bool) (cs : List Char),
    cs.length ≤ n → cs.length ≤ m → replAuxF n bnd cs = replAuxF m bnd cs := by
  intro n
  induction n with
  | zero =>
    intro m bnd cs hn _
    have : cs = [] := by
      cases cs with
      | nil => rfl
      | cons c r => simp at hn
    subst this
    cases m <;> rfl
  | succ n ih =>
    intro m bnd cs hn hm
    cases cs with
    | nil => cases m <;> rfl
    | cons c rest =>
      have hm1 : 0 < m := by simp at hm; omega
      obtain ⟨m', rfl⟩ : ∃ m', m = m' + 1 := ⟨m - 1, by omega⟩
      show replAuxF (n+1) bnd (c :: rest) = replAuxF (m'+1) bnd (c :: rest)
      unfold replAuxF
      cases hf : (if bnd then findTok (c :: rest) else none) with
      | none =>
        simp only []
        congr 1
        apply ih
        · simp at hn; omega
        · simp at hm; omega
      | some t =>
        simp only []
        have ht : isTok t := (findTok_some (by
          cases bnd with
          | false => simp at hf
          | true => simpa using hf)).2
        have htm : tokMatches t (c :: rest) = true := (findTok_some (by
          cases bnd with
          | false => simp at hf
          | true => simpa using hf)).1
        have hlen : t.length ≤ (c :: rest).length := tokMatches_le_length htm
        have hpos : 0 < t.length := by
          rcases (isTok_word ht).1 with h
          cases t with
          | nil => exact absurd rfl h
          | cons a b => simp
        congr 1
        apply ih
        · simp only [List.length_drop]
          simp at hn ⊢
          omega
        · simp only [List.length_drop]
          simp at hm ⊢
          omega

theorem replAux_nil (bnd : Bool) : replAux bnd [] = [] := rfl

theorem replAux_cons (bnd : Bool) (c : Char) (rest : List Char) :
    replAux bnd (c :: rest) =
      match (if bnd then findTok (c :: rest) else none) with
      | some t => '$' :: t ++ replAux false (List.drop t.length (c :: rest))
      | none => c :: replAux (!(isWordChar c)) rest := by
  show replAuxF (c :: rest).length bnd (c :: rest) = _
  have : (c :: rest).length = rest.length + 1 := by simp
  rw [this]
  unfold replAuxF
  cases hf : (if bnd then findTok (c :: rest) else none) with
  | none =>
    simp only []
    congr 1
  | some t =>
    simp only []
    have hprop := findTok_some (by
      cases bnd with
      | false => simp at hf
      | true => simpa using hf)
    have hlen : t.length ≤ (c :: rest).length := tokMatches_le_length hprop.1
    have hpos : 0 < t.length := by
      have := (isTok_word hprop.2).1
      cases t with
      | nil => exact absurd rfl this
      | cons a b => simp
    congr 1
    apply replAuxF_fuel
    · simp only [List.length_drop]
      simp
      omega
    · simp only [List.length_drop]
      omega

theorem replAux_nonword_head (c : Char) (bnd : Bool) (cs : List Char)
    (h : isWordChar c = false) :
    replAux bnd (c :: cs) = c :: replAux true cs := by
  rw [replAux_cons]
  have : (if bnd then findTok (c :: cs) else none) = none := by
    cases bnd
    · rfl
    · simpa using findTok_nonword h
  rw [this]
  simp [h]

theorem boundaryAfter_append {ys : List Char} (xs : List Char)
    (h : boundaryAfter ys = true) :
    boundaryAfter (xs ++ ys) = boundaryAfter xs := by
  cases xs with
  | nil => simpa using h
  | cons x xs' => rfl

theorem tokMatches_append {t cs ys : List Char}
    (hw : t.all isWordChar = true)
    (hys : boundaryAfter ys = true) :
    tokMatches t (cs ++ ys) = tokMatches t cs := by
  by_cases hle : t.length ≤ cs.length
  · unfold tokMatches
    rw [List.take_append_eq_append_take, List.drop_append_eq_append_drop]
    have h0 : t.length - cs.length = 0 := by omega
    rw [h0]
    simp only [List.take_zero, List.drop_zero, List.append_nil]
    rw [boundaryAfter_append _ hys]
  · push_neg at hle
    have hfcs : tokMatches t cs = false := by
      unfold tokMatches
      have : cs.take t.length = cs := List.take_of_length_le (by omega)
      rw [this]
      have : (cs == t) = false := by
        cases hb : cs == t
        · rfl
        · exfalso
          have := beq_iff_eq.mp hb
          subst this
          omega
      rw [this, Bool.false_and]
    rw [hfcs]
    cases ys with
    | nil => simp [hfcs]
    | cons y ys' =>
      have hyw : isWordChar y = false := by
        simpa [boundaryAfter] using hys
      unfold tokMatches
      rw [List.take_append_eq_append_take]
      have : cs.take t.length = cs := List.take_of_length_le (by omega)
      rw [this]
      have hpos : 0 < t.length - cs.length := by omega
      obtain ⟨k, hk⟩ : ∃ k, t.length - cs.length = k + 1 := ⟨t.length - cs.length - 1, by omega⟩
      rw [hk]
      have : ((cs ++ y :: (ys'.take k)) == t) = false := by
        cases hb : (cs ++ y :: (ys'.take k)) == t
        · rfl
        · exfalso
          have hbe := beq_iff_eq.mp hb
          have hy : y ∈ t := by
            rw [← hbe]
            exact List.mem_append_right _ (List.mem_cons_self _ _)
          have := List.all_eq_true.mp hw y hy
          simp [this] at hyw
      simp only [List.take_succ_cons] at *
      rw [this, Bool.false_and]

theorem findTok_append {cs ys : List Char}
    (hcs : cs ≠ []) (hys : boundaryAfter ys = true) :
    findTok (cs ++ ys) = findTok cs := by
  unfold findTok
  rw [tokMatches_append (by decide) hys, tokMatches_append (by decide) hys,
    tokMatches_append (by decide) hys, tokMatches_append (by decide) hys,
    tokMatches_append (by decide) hys]

/-- The boundary state after the scanner processes `cs`, entering with
state `bnd`: determined by the last character alone. -/
def afterBnd (bnd : Bool) : List Char → Bool
  | [] => bnd
  | c :: cs => afterBnd (!(isWordChar c)) cs

theorem afterBnd_nil (bnd : Bool) : afterBnd bnd [] = bnd := rfl

theorem afterBnd_cons (bnd : Bool) (c : Char) (cs : List Char) :
    afterBnd bnd (c :: cs) = afterBnd (!(isWordChar c)) cs := rfl

theorem afterBnd_append (bnd : Bool) (xs ys : List Char) :
    afterBnd bnd (xs ++ ys) = afterBnd (afterBnd bnd xs) ys := by
  induction xs generalizing bnd with
  | nil => rfl
  | cons x xs' ih => simp only [List.cons_append, afterBnd_cons, ih]

theorem afterBnd_tok {t : List Char} (bnd : Bool) (h : isTok t) :
    afterBnd bnd t = false := by
  rcases h with h | h | h | h | h <;> subst h <;> rfl

/-- Compositionality of the scanner: when what follows starts at a word
boundary, a prefix is rewritten independently of it. -/
theorem replAux_append : ∀ (n : Nat) (cs : List Char), cs.length ≤ n →
    ∀ (bnd : Bool) (ys : List Char), boundaryAfter ys = true →
    replAux bnd (cs ++ ys) = replAux bnd cs ++ replAux (afterBnd bnd cs) ys := by
  intro n
  induction n with
  | zero =>
    intro cs hn bnd ys hys
    have : cs = [] := by cases cs with
      | nil => rfl
      | cons c r => simp at hn
    subst this
    simp [replAux_nil, afterBnd_nil]
  | succ n ih =>
    intro cs hn bnd ys hys
    cases cs with
    | nil => simp [replAux_nil, afterBnd_nil]
    | cons c cs' =>
      have hne : (c :: cs') ≠ [] := by simp
      have hcons : (c :: cs') ++ ys = c :: (cs' ++ ys) := by simp
      have hft : findTok (c :: (cs' ++ ys)) = findTok (c :: cs') := by
        have := findTok_append hne hys
        simpa using this
      rw [hcons, replAux_cons, hft]
      conv_rhs => rw [replAux_cons]
      cases hb : (if bnd then findTok (c :: cs') else none) with
      | none =>
        simp only [hb]
        have ihr := ih cs' (by simp at hn; omega) (!(isWordChar c)) ys hys
        rw [ihr, afterBnd_cons]
        simp
      | some t =>
        simp only [hb]
        have hprop := findTok_some (by
          cases bnd with
          | false => simp at hb
          | true => simpa using hb)
        have htm := hprop.1
        have htok := hprop.2
        have hlen : t.length ≤ (c :: cs').length := tokMatches_le_length htm
        have hpos : 0 < t.length := by
          have := (isTok_word htok).1
          cases t with
          | nil => exact absurd rfl this
          | cons a b => simp
        have hdrop : List.drop t.length (c :: (cs' ++ ys)) =
            List.drop t.length (c :: cs') ++ ys := by
          have hx : c :: (cs' ++ ys) = (c :: cs') ++ ys := by simp
          rw [hx, List.drop_append_eq_append_drop]
          have h0 : t.length - (c :: cs').length = 0 := by omega
          rw [h0]
          simp
        rw [hdrop]
        have ihr := ih (List.drop t.length (c :: cs')) (by
          simp only [List.length_drop]
          simp at hn ⊢
          omega) false ys hys
        rw [ihr]
        have habnd : afterBnd bnd (c :: cs') = afterBnd false (List.drop t.length (c :: cs')) := by
          have hsplit : (c :: cs') = t ++ List.drop t.length (c :: cs') := by
            conv_lhs => rw [← List.take_append_drop t.length (c :: cs')]
            rw [(tokMatches_take htm).1]
          conv_lhs => rw [hsplit]
          rw [afterBnd_append, afterBnd_tok bnd htok]
        rw [habnd]
        simp

/-! ## Rewriting the serialized object = rewriting each string in place -/

theorem replAux_plain : ∀ (n : Nat) (cs : List Char), cs.length ≤ n →
    ∀ (bnd : Bool), plainL cs = true → plainL (replAux bnd cs) = true := by
  intro n
  induction n with
  | zero =>
    intro cs hn bnd hp
    have : cs = [] := by cases cs with
      | nil => rfl
      | cons c r => simp at hn
    subst this
    rfl
  | succ n ih =>
    intro cs hn bnd hp
    cases cs with
    | nil => rfl
    | cons c cs' =>
      simp only [plainL, List.all_eq_true] at hp
      rw [replAux_cons]
      cases hb : (if bnd then findTok (c :: cs') else none) with
      | none =>
        simp only []
        have hp' : plainL cs' = true := by
          simp only [plainL, List.all_eq_true]
          intro x hx
          exact hp x (List.mem_cons_of_mem _ hx)
        have hrec := ih cs' (by simp at hn; omega) (!(isWordChar c)) hp'
        simp only [plainL, List.all_eq_true] at hrec ⊢
        intro x hx
        rcases List.mem_cons.mp hx with h | h
        · subst h
          exact hp x (List.mem_cons_self _ _)
        · exact hrec x h
      | some t =>
        simp only []
        have hprop := findTok_some (by
          cases bnd with
          | false => simp at hb
          | true => simpa using hb)
        have hlen : t.length ≤ (c :: cs').length := tokMatches_le_length hprop.1
        have hpos : 0 < t.length := by
          have := (isTok_word hprop.2).1
          cases t with
          | nil => exact absurd rfl this
          | cons a b => simp
        have hpt : ∀ x ∈ t, plainChar x = true := by
          rcases hprop.2 with h | h | h | h | h <;> subst h <;> decide
        have hpdrop : plainL (List.drop t.length (c :: cs')) = true := by
          simp only [plainL, List.all_eq_true]
          intro x hx
          exact hp x (List.mem_of_mem_drop hx)
        have hrec := ih (List.drop t.length (c :: cs')) (by
          simp only [List.length_drop]
          simp at hn ⊢
          omega) false hpdrop
        simp only [plainL, List.all_eq_true] at hrec ⊢
        intro x hx
        rcases List.mem_cons.mp hx with h | h
        · subst h
          decide
        · rcases List.mem_append.mp h with h' | h'
          · exact hpt x h'
          · exact hrec x h'

theorem escapeC_plain {cs : List Char} (h : plainL cs = true) :
    escapeC cs = cs := by
  induction cs with
  | nil => rfl
  | cons c cs' ih =>
    simp only [plainL, List.all_cons, Bool.and_eq_true] at h
    have hc : escChar c = [c] := by
      unfold escChar
      have h1 : c ≠ '"' := by
        intro he
        subst he
        simp [plainChar] at h
      have h2 : c ≠ '\\' := by
        intro he
        subst he
        simp [plainChar] at h
      simp [h1, h2]
    simp only [escapeC, List.map_cons, List.flatten_cons, hc]
    have := ih h.2
    simp only [escapeC] at this
    rw [this]
    rfl

theorem quoteC_plain {cs : List Char} (h : plainL cs = true) :
    quoteC cs = '"' :: cs ++ ['"'] := by
  unfold quoteC
  rw [escapeC_plain h]

/-- Scanning a quoted plain segment rewrites exactly the segment's
content, independently of what follows the closing quote. -/
theorem replAux_quoted (cs ys : List Char) (bnd : Bool) :
    replAux bnd ('"' :: (cs ++ '"' :: ys)) =
      '"' :: (replAux true cs ++ '"' :: replAux true ys) := by
  rw [replAux_nonword_head '"' bnd (cs ++ '"' :: ys) (by decide)]
  have h1 : boundaryAfter ('"' :: ys) = true := by
    show (!(isWordChar '"')) = true
    decide
  rw [replAux_append cs.length cs le_rfl true ('"' :: ys) h1,
    replAux_nonword_head '"' (afterBnd true cs) ys (by decide)]

theorem rwS_data (s : String) : (rwS s).data = replAux true s.data := rfl

theorem plainStr_rwS {s : String} (h : plainStr s = true) :
    plainStr (rwS s) = true := by
  unfold plainStr at *
  rw [rwS_data]
  exact replAux_plain s.data.length s.data le_rfl true h

/-- One serialized string member `"k":"v"` followed by a non-word
character rewrites to the serialized member of the rewritten strings. -/
theorem replAux_strPair (k v : String) (e : Char) (zs : List Char)
    (hk : plainStr k = true) (hv : plainStr v = true)
    (he : isWordChar e = false) :
    replAux true (strPairText (k, v) ++ e :: zs) =
      strPairText (rwS k, rwS v) ++ e :: replAux true zs := by
  unfold strPairText
  rw [quoteC_plain hk, quoteC_plain hv, quoteC_plain (plainStr_rwS hk),
    quoteC_plain (plainStr_rwS hv)]
  simp only [List.cons_append, List.append_assoc, List.nil_append,
    List.singleton_append]
  rw [replAux_quoted, replAux_nonword_head ':' _ _ (by decide),
    replAux_quoted, replAux_nonword_head e _ _ he, rwS_data, rwS_data]

/-- The body of a serialized nested object, followed by a non-word
character, rewrites member by member. -/
theorem replAux_innerBody : ∀ (l : List (String × String)) (d : Char) (ys : List Char),
    (l.all fun p => plainStr p.1 && plainStr p.2) = true → isWordChar d = false →
    replAux true (joinCommas (l.map strPairText) ++ d :: ys) =
      joinCommas (((l.map fun p => (rwS p.1, rwS p.2)).map strPairText)) ++
        d :: replAux true ys := by
  intro l
  induction l with
  | nil =>
    intro d ys _ hd
    simp only [List.map_nil, joinCommas, List.nil_append]
    rw [replAux_nonword_head d _ _ hd]
  | cons p tail ih =>
    intro d ys hp hd
    obtain ⟨k, v⟩ := p
    simp only [List.all_cons, Bool.and_eq_true] at hp
    obtain ⟨⟨hk, hv⟩, htail⟩ := hp
    cases tail with
    | nil =>
      simp only [List.map_cons, List.map_nil, joinCommas]
      exact replAux_strPair k v d ys hk hv hd
    | cons p' tail' =>
      simp only [List.map_cons, joinCommas, List.append_assoc, List.cons_append]
      have hstep := replAux_strPair k v ','
        (joinCommas ((p' :: tail').map strPairText) ++ d :: ys) hk hv (by decide)
      simp only [List.map_cons, List.append_assoc, List.cons_append] at hstep
      rw [hstep]
      have hrest := ih d ys (by simp only [List.all_cons]; exact htail) hd
      simp only [List.map_cons] at hrest
      rw [hrest]

/-- One serialized top-level member `"k":v`, followed by a non-word
character, rewrites to the member of the rewritten key and value. -/
theorem replAux_topPair (k : String) (v : PVal) (e : Char) (zs : List Char)
    (hk : plainStr k = true) (hv : plainVal v = true)
    (he : isWordChar e = false) :
    replAux true (pairText (k, v) ++ e :: zs) =
      pairText (rwS k, rwVal v) ++ e :: replAux true zs := by
  cases v with
  | str s =>
    have := replAux_strPair k s e zs hk hv he
    simpa [pairText, strPairText, valText, rwVal] using this
  | obj l =>
    unfold pairText valText innerObjText
    simp only [rwVal]
    rw [quoteC_plain hk, quoteC_plain (plainStr_rwS hk)]
    simp only [List.cons_append, List.append_assoc, List.nil_append]
    rw [replAux_quoted]
    congr 1
    rw [replAux_nonword_head ':' _ _ (by decide)]
    congr 1
    rw [replAux_nonword_head '{' _ _ (by decide)]
    congr 1
    have hbody := replAux_innerBody l '}' (e :: zs) (by simpa [plainVal] using hv)
      (by decide)
    rw [hbody, replAux_nonword_head e _ _ he]

/-- The body of the serialized top-level object, followed by a non-word
character, rewrites member by member. -/
theorem replAux_topBody : ∀ (q : RawParams) (d : Char) (ys : List Char),
    plainParams q = true → isWordChar d = false →
    replAux true (joinCommas (q.map pairText) ++ d :: ys) =
      joinCommas ((rwObj q).map pairText) ++ d :: replAux true ys := by
  intro q
  induction q with
  | nil =>
    intro d ys _ hd
    simp only [List.map_nil, joinCommas, List.nil_append, rwObj]
    rw [replAux_nonword_head d _ _ hd]
  | cons p tail ih =>
    intro d ys hp hd
    obtain ⟨k, v⟩ := p
    simp only [plainParams, List.all_cons, Bool.and_eq_true] at hp
    obtain ⟨⟨hk, hv⟩, htail⟩ := hp
    cases tail with
    | nil =>
      simp only [List.map_cons, List.map_nil, joinCommas, rwObj]
      exact replAux_topPair k v d ys hk hv hd
    | cons p' tail' =>
      simp only [List.map_cons, joinCommas, List.append_assoc, List.cons_append, rwObj]
      have hstep := replAux_topPair k v ','
        (joinCommas ((p' :: tail').map pairText) ++ d :: ys) hk hv (by decide)
      simp only [List.map_cons, List.append_assoc, List.cons_append] at hstep
      rw [hstep]
      have hrest := ih d ys (by simp only [plainParams, List.all_cons]; exact htail) hd
      simp only [rwObj, List.map_cons] at hrest
      rw [hrest]

/-- Textually rewriting the serialized object equals serializing the
structurally rewritten object (for plain parameter mappings). -/
theorem replAux_objText {q : RawParams} (hp : plainParams q = true) :
    replAux true (objText q) = objText (rwObj q) := by
  unfold objText
  simp only [List.cons_append, List.append_assoc]
  rw [replAux_nonword_head '{' _ _ (by decide)]
  have := replAux_topBody q '}' [] hp (by decide)
  rw [this, replAux_nil]

/-! ## Parser roundtrip -/

theorem parseStrAux_plain : ∀ (cs : List Char), plainL cs = true →
    ∀ (rest : List Char), parseStrAux (cs ++ '"' :: rest) = some (cs, rest) := by
  intro cs
  induction cs with
  | nil =>
    intro _ rest
    unfold parseStrAux
    simp
  | cons c cs' ih =>
    intro hp rest
    simp only [plainL, List.all_cons, Bool.and_eq_true] at hp
    have h1 : c ≠ '"' := by
      intro he; subst he; simp [plainChar] at hp
    have h2 : c ≠ '\\' := by
      intro he; subst he; simp [plainChar] at hp
    simp only [List.cons_append]
    unfold parseStrAux
    rw [if_neg h1, if_neg h2, ih hp.2 rest]

theorem joinCommas_strPair_length (l : List (String × String)) :
    l.length ≤ (joinCommas (l.map strPairText)).length + 1 := by
  induction l with
  | nil => simp
  | cons p tail ih =>
    cases tail with
    | nil => simp
    | cons p' tail' =>
      simp only [List.map_cons, joinCommas, List.length_cons, List.length_append] at *
      have hq : 0 < (strPairText p).length := by
        simp [strPairText, quoteC]
      omega

theorem joinCommas_pair_length (q : RawParams) :
    q.length ≤ (joinCommas (q.map pairText)).length + 1 := by
  induction q with
  | nil => simp
  | cons p tail ih =>
    cases tail with
    | nil => simp
    | cons p' tail' =>
      simp only [List.map_cons, joinCommas, List.length_cons, List.length_append] at *
      have hq : 0 < (pairText p).length := by
        simp [pairText, quoteC]
      omega

theorem parseInnerF_round : ∀ (l : List (String × String)) (n : Nat) (rest : List Char),
    l ≠ [] → l.length ≤ n →
    (l.all fun p => plainStr p.1 && plainStr p.2) = true →
    parseInnerF n (joinCommas (l.map strPairText) ++ '}' :: rest) = some (l, rest) := by
  intro l
  induction l with
  | nil => intro n rest h; exact absurd rfl h
  | cons p tail ih =>
    intro n rest _ hn hp
    obtain ⟨k, v⟩ := p
    obtain ⟨m, rfl⟩ : ∃ m, n = m + 1 := ⟨n - 1, by simp at hn; omega⟩
    simp only [List.all_cons, Bool.and_eq_true] at hp
    obtain ⟨⟨hk, hv⟩, htail⟩ := hp
    have hkq := quoteC_plain hk
    have hvq := quoteC_plain hv
    cases tail with
    | nil =>
      have htext : joinCommas ([((k : String), (v : String))].map strPairText) ++ '}' :: rest =
          '"' :: (k.data ++ '"' :: ':' :: '"' :: (v.data ++ '"' :: '}' :: rest)) := by
        simp [joinCommas, strPairText, hkq, hvq]
      rw [htext]
      simp [parseInnerF, parseStrAux_plain k.data hk, parseStrAux_plain v.data hv]
    | cons p' tail' =>
      have htext : joinCommas (((k, v) :: p' :: tail').map strPairText) ++ '}' :: rest =
          '"' :: (k.data ++ '"' :: ':' :: '"' :: (v.data ++ '"' :: ',' ::
            (joinCommas ((p' :: tail').map strPairText) ++ '}' :: rest))) := by
        simp [joinCommas, strPairText, hkq, hvq, List.map_cons]
      have hrec := ih m rest (by simp) (by simp at hn ⊢; omega)
        (by simp only [List.all_cons]; exact htail)
      rw [htext]
      generalize hX : joinCommas ((p' :: tail').map strPairText) ++ '}' :: rest = X at hrec
      simp [parseInnerF, parseStrAux_plain k.data hk, parseStrAux_plain v.data hv, hrec]

theorem joinCommas_strPair_head (x : String × String) (xs : List (String × String)) :
    ∃ T, joinCommas ((x :: xs).map strPairText) = '"' :: T := by
  cases xs with
  | nil =>
    refine ⟨escapeC x.1.data ++ '"' :: ':' :: quoteC x.2.data, ?_⟩
    simp [joinCommas, strPairText, quoteC]
  | cons y ys =>
    refine ⟨escapeC x.1.data ++ '"' :: ':' :: quoteC x.2.data ++
      ',' :: joinCommas ((y :: ys).map strPairText), ?_⟩
    simp [joinCommas, strPairText, quoteC]

theorem joinCommas_pair_head (x : String × PVal) (xs : RawParams) :
    ∃ T, joinCommas ((x :: xs).map pairText) = '"' :: T := by
  cases xs with
  | nil =>
    refine ⟨escapeC x.1.data ++ '"' :: ':' :: valText x.2, ?_⟩
    simp [joinCommas, pairText, quoteC]
  | cons y ys =>
    refine ⟨escapeC x.1.data ++ '"' :: ':' :: valText x.2 ++
      ',' :: joinCommas ((y :: ys).map pairText), ?_⟩
    simp [joinCommas, pairText, quoteC]

theorem parseVal_brace (T r : List Char) (l : List (String × String))
    (hround : parseInnerF (('"' :: (T ++ '}' :: r)).length) ('"' :: (T ++ '}' :: r)) =
      some (l, r)) :
    parseVal ('{' :: '"' :: (T ++ '}' :: r)) = some (.obj l, r) := by
  unfold parseVal
  simp only [if_neg (by decide : ¬('{' : Char) = '"'), if_pos rfl,
    if_neg (by decide : ¬('"' : Char) = '}')]
  rw [hround]
  simp

theorem parseVal_round {v : PVal} (hv : plainVal v = true) (r : List Char) :
    parseVal (valText v ++ r) = some (v, r) := by
  cases v with
  | str s =>
    have hq := quoteC_plain (by simpa [plainVal] using hv)
    simp only [valText, hq, List.cons_append, List.append_assoc,
      List.singleton_append]
    simp [parseVal, parseStrAux_plain s.data (by simpa [plainVal] using hv)]
  | obj l =>
    cases l with
    | nil =>
      simp [valText, innerObjText, joinCommas, parseVal]
    | cons x xs =>
      obtain ⟨T, hT⟩ := joinCommas_strPair_head x xs
      have hplain : ((x :: xs).all fun p => plainStr p.1 && plainStr p.2) = true := by
        simpa [plainVal] using hv
      have hJlen := joinCommas_strPair_length (x :: xs)
      have hTlen : (joinCommas ((x :: xs).map strPairText)).length = T.length + 1 := by
        rw [hT]; simp
      have hlen : (x :: xs).length ≤ ('"' :: (T ++ '}' :: r)).length := by
        simp only [List.length_cons, List.length_append] at *
        omega
      have hround := parseInnerF_round (x :: xs) (('"' :: (T ++ '}' :: r)).length) r
        (by simp) hlen hplain
      rw [hT] at hround
      simp only [List.cons_append] at hround
      have htext : valText (PVal.obj (x :: xs)) ++ r =
          '{' :: '"' :: (T ++ '}' :: r) := by
        simp only [valText, innerObjText, List.cons_append, List.append_assoc,
          List.singleton_append, hT, List.nil_append]
      rw [htext]
      exact parseVal_brace T r (x :: xs) hround

theorem parseTopF_round : ∀ (q : RawParams) (n : Nat) (rest : List Char),
    q ≠ [] → q.length ≤ n → plainParams q = true →
    parseTopF n (joinCommas (q.map pairText) ++ '}' :: rest) = some (q, rest) := by
  intro q
  induction q with
  | nil => intro n rest h; exact absurd rfl h
  | cons p tail ih =>
    intro n rest _ hn hp
    obtain ⟨k, v⟩ := p
    obtain ⟨m, rfl⟩ : ∃ m, n = m + 1 := ⟨n - 1, by simp at hn; omega⟩
    simp only [plainParams, List.all_cons, Bool.and_eq_true] at hp
    obtain ⟨⟨hk, hv⟩, htail⟩ := hp
    have hkq := quoteC_plain hk
    cases tail with
    | nil =>
      have htext : joinCommas ([((k : String), v)].map pairText) ++ '}' :: rest =
          '"' :: (k.data ++ '"' :: ':' :: (valText v ++ '}' :: rest)) := by
        simp only [List.map_cons, List.map_nil, joinCommas, pairText, hkq,
          List.cons_append, List.append_assoc, List.singleton_append,
          List.nil_append]
      have hval := parseVal_round hv ('}' :: rest)
      rw [htext]
      generalize hX : valText v ++ '}' :: rest = X at hval ⊢
      simp [parseTopF, parseStrAux_plain k.data hk, hval]
    | cons p' tail' =>
      have htext : joinCommas (((k, v) :: p' :: tail').map pairText) ++ '}' :: rest =
          '"' :: (k.data ++ '"' :: ':' :: (valText v ++ ',' ::
            (joinCommas ((p' :: tail').map pairText) ++ '}' :: rest))) := by
        simp only [List.map_cons, joinCommas, pairText, hkq,
          List.cons_append, List.append_assoc, List.singleton_append,
          List.nil_append]
      have hval := parseVal_round hv (',' ::
        (joinCommas ((p' :: tail').map pairText) ++ '}' :: rest))
      have hrec := ih m rest (by simp) (by simp at hn ⊢; omega)
        (by simp only [plainParams, List.all_cons]; exact htail)
      rw [htext]
      generalize hY : joinCommas ((p' :: tail').map pairText) ++ '}' :: rest = Y
        at hval hrec
      generalize hX : valText v ++ ',' :: Y = X at hval ⊢
      simp [parseTopF, parseStrAux_plain k.data hk, hval, hrec]

/-- `JSON.parse ∘ JSON.stringify` roundtrip on plain parameter objects. -/
theorem jsonParse_objText : ∀ (q : RawParams), plainParams q = true →
    jsonParse (objText q) = some q := by
  intro q hp
  cases q with
  | nil => rfl
  | cons p tail =>
    obtain ⟨T, hT⟩ := joinCommas_pair_head p tail
    have hlen : (p :: tail).length ≤ ('"' :: (T ++ '}' :: ([] : List Char))).length := by
      have h1 := joinCommas_pair_length (p :: tail)
      have h2 : (joinCommas ((p :: tail).map pairText)).length = T.length + 1 := by
        rw [hT]; simp
      simp only [List.length_cons, List.length_append] at *
      omega
    have hround := parseTopF_round (p :: tail) (('"' :: (T ++ '}' :: ([] : List Char))).length)
      [] (by simp) hlen hp
    rw [hT] at hround
    simp only [List.cons_append] at hround
    have htext : objText (p :: tail) = '{' :: '"' :: (T ++ '}' :: []) := by
      simp only [objText, List.cons_append, List.append_assoc,
        List.singleton_append, hT, List.nil_append]
    rw [htext]
    unfold jsonParse
    simp only [if_pos rfl, if_neg (by decide : ¬('"' : Char) = '}')]
    rw [hround]
    simp

theorem plainParams_removeReserved {rp : RawParams} (h : plainParams rp = true) :
    plainParams (removeReserved rp) = true := by
  simp only [plainParams, List.all_eq_true] at h ⊢
  intro p hp
  exact h p (List.mem_of_mem_filter hp)

theorem plainVal_rwVal {v : PVal} (h : plainVal v = true) :
    plainVal (rwVal v) = true := by
  cases v with
  | str s => simpa [rwVal, plainVal] using plainStr_rwS h
  | obj l =>
    simp only [rwVal, plainVal, List.all_eq_true] at h ⊢
    intro p hp
    obtain ⟨p0, hp0, rfl⟩ := List.mem_map.mp hp
    have := h p0 hp0
    simp only [Bool.and_eq_true] at this ⊢
    exact ⟨plainStr_rwS this.1, plainStr_rwS this.2⟩

theorem plainParams_rwObj {q : RawParams} (h : plainParams q = true) :
    plainParams (rwObj q) = true := by
  simp only [plainParams, rwObj, List.all_eq_true] at h ⊢
  intro p hp
  obtain ⟨p0, hp0, rfl⟩ := List.mem_map.mp hp
  have := h p0 hp0
  simp only [Bool.and_eq_true] at this ⊢
  exact ⟨plainStr_rwS this.1, plainVal_rwVal this.2⟩

/-- The `filter()` predicate pipeline, characterized structurally: on
plain parameters it yields exactly the reserved-key-stripped mapping
with the word-boundary token rewrite applied to every key and value. -/
theorem filterPred_plain {rp : RawParams} (h : plainParams rp = true) :
    filterPred rp = some (rwObj (removeReserved rp)) := by
  unfold filterPred
  rw [replAux_objText (plainParams_removeReserved h)]
  exact jsonParse_objText _ (plainParams_rwObj (plainParams_removeReserved h))

/-! ## Further properties of the rewrite and of split/join -/

theorem replAuxF_eq_or_dollar : ∀ (n : Nat) (bnd : Bool) (cs : List Char),
    replAuxF n bnd cs = cs ∨ '$' ∈ replAuxF n bnd cs := by
  intro n
  induction n with
  | zero => intro bnd cs; exact Or.inl rfl
  | succ n ih =>
    intro bnd cs
    cases cs with
    | nil => exact Or.inl rfl
    | cons c rest =>
      have hunf : replAuxF (n + 1) bnd (c :: rest) =
          match (if bnd then findTok (c :: rest) else none) with
          | some t => '$' :: t ++ replAuxF n false (List.drop t.length (c :: rest))
          | none => c :: replAuxF n (!(isWordChar c)) rest := rfl
      rw [hunf]
      cases hf : (if bnd then findTok (c :: rest) else none) with
      | some t =>
        simp only []
        exact Or.inr (List.mem_cons_self _ _)
      | none =>
        simp only []
        rcases ih (!(isWordChar c)) rest with h | h
        · exact Or.inl (by rw [h])
        · exact Or.inr (List.mem_cons_of_mem _ h)

theorem replAux_eq_or_dollar (bnd : Bool) (cs : List Char) :
    replAux bnd cs = cs ∨ '$' ∈ replAux bnd cs :=
  replAuxF_eq_or_dollar cs.length bnd cs

/-- The token rewrite can never output the bare string `gte` (it either
leaves a string unchanged or inserts an operator sigil). -/
theorem rwS_ne_gte (s : String) : rwS s ≠ "gte" := by
  intro h
  have hdata : replAux true s.data = "gte".data := congrArg String.data h
  rcases replAux_eq_or_dollar true s.data with he | hm
  · have hsd : s.data = "gte".data := by rw [← he, hdata]
    have hcontra : replAux true s.data = "$gte".data := by
      rw [hsd]
      decide
    rw [hdata] at hcontra
    exact absurd hcontra (by decide)
  · rw [hdata] at hm
    exact absurd hm (by decide)

theorem splitOnChar_ne_nil (sep : Char) (cs : List Char) :
    splitOnChar sep cs ≠ [] := by
  cases cs with
  | nil => simp [splitOnChar]
  | cons c rest =>
    unfold splitOnChar
    cases h : splitOnChar sep rest with
    | nil => simp
    | cons g gs =>
      by_cases hc : c = sep <;> simp [hc]

/-- `s.split(sep).join(rep)` replaces every occurrence of `sep` by `rep`. -/
theorem joinChar_splitOnChar (sep rep : Char) : ∀ (cs : List Char),
    joinChar rep (splitOnChar sep cs) =
      cs.map fun c => if c = sep then rep else c := by
  intro cs
  induction cs with
  | nil => rfl
  | cons c rest ih =>
    unfold splitOnChar
    cases h : splitOnChar sep rest with
    | nil => exact absurd h (splitOnChar_ne_nil sep rest)
    | cons g gs =>
      rw [h] at ih
      by_cases hc : c = sep
      · subst hc
        simp only [if_pos rfl]
        cases gs with
        | nil =>
          simp only [joinChar] at ih ⊢
          simp [ih]
        | cons g' gs' =>
          simp only [joinChar] at ih ⊢
          simp [ih]
      · simp only [if_neg hc]
        cases gs with
        | nil =>
          simp only [joinChar] at ih ⊢
          simp [ih, hc]
        | cons g' gs' =>
          simp only [joinChar] at ih ⊢
          simp [ih, hc]

theorem splitJoin_map (sep rep : Char) (s : String) :
    splitJoin sep rep s = ⟨s.data.map fun c => if c = sep then rep else c⟩ := by
  unfold splitJoin
  rw [joinChar_splitOnChar]

/-- Splitting a string with no separator occurrence yields the single
whole chunk. -/
theorem splitOnChar_no_sep {sep : Char} : ∀ {cs : List Char},
    (∀ c ∈ cs, c ≠ sep) → splitOnChar sep cs = [cs] := by
  intro cs
  induction cs with
  | nil => intro _; rfl
  | cons c rest ih =>
    intro h
    unfold splitOnChar
    rw [ih fun c hc => h c (List.mem_cons_of_mem _ hc)]
    simp [h c (List.mem_cons_self _ _)]

/-- Splitting at a single separator occurrence yields the two chunks. -/
theorem splitOnChar_single {sep : Char} : ∀ {xs : List Char} (ys : List Char),
    (∀ c ∈ xs, c ≠ sep) → (∀ c ∈ ys, c ≠ sep) →
    splitOnChar sep (xs ++ sep :: ys) = [xs, ys] := by
  intro xs
  induction xs with
  | nil =>
    intro ys _ hys
    simp only [List.nil_append]
    unfold splitOnChar
    rw [splitOnChar_no_sep hys]
    simp
  | cons x xs' ih =>
    intro ys hxs hys
    simp only [List.cons_append]
    unfold splitOnChar
    rw [ih ys (fun c hc => hxs c (List.mem_cons_of_mem _ hc)) hys]
    simp [hxs x (List.mem_cons_self _ _)]

/-! ## Stage-level facts -/

theorem sappend_data (x y : String) : (x ++ y).data = x.data ++ y.data := rfl

theorem runStage_queryStr (st : Stage) (af af' : APIFilters)
    (h : runStage st af = some af') : af'.queryStr = af.queryStr := by
  cases st with
  | filter =>
    simp only [runStage, APIFilters.filter, filterSt] at h
    cases hf : filterPred af.queryStr with
    | some p => rw [hf] at h; simp at h; rw [← h]
    | none => rw [hf] at h; simp at h
  | sort =>
    simp only [runStage, APIFilters.sort, sortSt] at h
    cases hg : getParam af.queryStr "sort" with
    | none => rw [hg] at h; simp at h; rw [← h]
    | some v =>
      rw [hg] at h
      cases v with
      | str s =>
        by_cases hs : s = "" <;> simp [hs] at h <;> rw [← h]
      | obj l => simp at h
  | limitFields =>
    simp only [runStage, APIFilters.limitFields, limitFieldsSt] at h
    cases hg : getParam af.queryStr "fields" with
    | none => rw [hg] at h; simp at h; rw [← h]
    | some v =>
      rw [hg] at h
      cases v with
      | str s =>
        by_cases hs : s = "" <;> simp [hs] at h <;> rw [← h]
      | obj l => simp at h
  | searchByQuery =>
    simp only [runStage, APIFilters.searchByQuery, searchSt] at h
    cases hg : getParam af.queryStr "q" with
    | none => rw [hg] at h; simp at h; rw [← h]
    | some v =>
      rw [hg] at h
      cases v with
      | str s =>
        by_cases hs : s = "" <;> simp [hs] at h <;> rw [← h]
      | obj l => simp at h
  | pagination =>
    simp only [runStage, APIFilters.pagination, paginationSt] at h
    simp at h
    rw [← h]

/-- C9 helper at the claim level; see `c9_snapshot_immutable`. -/
theorem runStages_queryStr : ∀ (stages : List Stage) (af af' : APIFilters),
    runStages stages af = some af' → af'.queryStr = af.queryStr := by
  intro stages
  induction stages with
  | nil =>
    intro af af' h
    simp only [runStages] at h
    cases h
    rfl
  | cons st rest ih =>
    intro af af' h
    simp only [runStages] at h
    cases hst : runStage st af with
    | none => rw [hst] at h; simp at h
    | some af₁ =>
      rw [hst] at h
      simp only [] at h
      rw [ih af₁ af' h, runStage_queryStr st af af₁ hst]

/-! ## Claims -/

/-- C8: for every RawParameters, invoking `sort()` twice on the same
builder yields the same final state as invoking it once — the later
call overwrites the sort directive rather than appending, so exactly
one sort directive is ever active. -/
theorem c8_sort_overwrites (af : APIFilters) :
    af.sort.bind APIFilters.sort = af.sort := by
  unfold APIFilters.sort
  cases hg : getParam af.queryStr "sort" with
  | none => simp [sortSt, hg, QueryHandle.sortQ]
  | some v =>
    cases v with
    | str s =>
      by_cases hs : s = ""
      · simp [sortSt, hg, hs, QueryHandle.sortQ]
      · simp [sortSt, hg, hs, QueryHandle.sortQ]
    | obj l => simp [sortSt, hg]

/-- C9: every chain of stage invocations leaves the stored RawParameters
snapshot unchanged — the stages only replace the query handle, and
`filter()` operates on a copy of the snapshot. -/
theorem c9_snapshot_immutable (stages : List Stage) (af af' : APIFilters)
    (h : runStages stages af = some af') : af'.queryStr = af.queryStr :=
  runStages_queryStr stages af af' h

theorem c9_snapshot_immutable_witness :
    runStages [Stage.filter, Stage.searchByQuery, Stage.sort, Stage.limitFields,
        Stage.pagination]
      ⟨QueryHandle.empty, [("price", PVal.obj [("gte", "50")]),
        ("q", PVal.str "remote-engineer"), ("page", PVal.str "2"),
        ("limit", PVal.str "5")]⟩ =
      some ⟨⟨[[("$text", PVal.obj [("$search", "\"remote engineer\"")])],
          [("price", PVal.obj [("$gte", "50")])]],
        some "-postingDate", some "-__v", some 5, some 5⟩,
        [("price", PVal.obj [("gte", "50")]), ("q", PVal.str "remote-engineer"),
          ("page", PVal.str "2"), ("limit", PVal.str "5")]⟩ ∧
    (⟨⟨[[("$text", PVal.obj [("$search", "\"remote engineer\"")])],
          [("price", PVal.obj [("$gte", "50")])]],
        some "-postingDate", some "-__v", some 5, some 5⟩,
        [("price", PVal.obj [("gte", "50")]), ("q", PVal.str "remote-engineer"),
          ("page", PVal.str "2"), ("limit", PVal.str "5")]⟩ : APIFilters).queryStr =
      [("price", PVal.obj [("gte", "50")]), ("q", PVal.str "remote-engineer"),
        ("page", PVal.str "2"), ("limit", PVal.str "5")] :=
  ⟨by decide,
    c9_snapshot_immutable
      [Stage.filter, Stage.searchByQuery, Stage.sort, Stage.limitFields,
        Stage.pagination]
      ⟨QueryHandle.empty, [("price", PVal.obj [("gte", "50")]),
        ("q", PVal.str "remote-engineer"), ("page", PVal.str "2"),
        ("limit", PVal.str "5")]⟩
      ⟨⟨[[("$text", PVal.obj [("$search", "\"remote engineer\"")])],
          [("price", PVal.obj [("$gte", "50")])]],
        some "-postingDate", some "-__v", some 5, some 5⟩,
        [("price", PVal.obj [("gte", "50")]), ("q", PVal.str "remote-engineer"),
          ("page", PVal.str "2"), ("limit", PVal.str "5")]⟩
      (by decide)⟩

/-- C10: a `sort`, `fields` or `q` parameter bound to the empty string
is falsy in JS, so the corresponding stage behaves exactly as when the
key is absent: default sort, default exclusion projection, or search
no-op. -/
theorem c10_empty_string_like_absent :
    (∀ (q : QueryHandle) (rp rp' : RawParams),
      getParam rp "sort" = some (.str "") → getParam rp' "sort" = none →
      APIFilters.sort ⟨q, rp⟩ = some ⟨q.sortQ "-postingDate", rp⟩ ∧
      APIFilters.sort ⟨q, rp'⟩ = some ⟨q.sortQ "-postingDate", rp'⟩) ∧
    (∀ (q : QueryHandle) (rp rp' : RawParams),
      getParam rp "fields" = some (.str "") → getParam rp' "fields" = none →
      APIFilters.limitFields ⟨q, rp⟩ = some ⟨q.select "-__v", rp⟩ ∧
      APIFilters.limitFields ⟨q, rp'⟩ = some ⟨q.select "-__v", rp'⟩) ∧
    (∀ (q : QueryHandle) (rp rp' : RawParams),
      getParam rp "q" = some (.str "") → getParam rp' "q" = none →
      APIFilters.searchByQuery ⟨q, rp⟩ = some ⟨q, rp⟩ ∧
      APIFilters.searchByQuery ⟨q, rp'⟩ = some ⟨q, rp'⟩) := by
  refine ⟨?_, ?_, ?_⟩
  · intro q rp rp' h h'
    constructor
    · simp [APIFilters.sort, sortSt, h]
    · simp [APIFilters.sort, sortSt, h']
  · intro q rp rp' h h'
    constructor
    · simp [APIFilters.limitFields, limitFieldsSt, h]
    · simp [APIFilters.limitFields, limitFieldsSt, h']
  · intro q rp rp' h h'
    constructor
    · simp [APIFilters.searchByQuery, searchSt, h]
    · simp [APIFilters.searchByQuery, searchSt, h']

theorem c10_empty_string_like_absent_witness :
    APIFilters.sort ⟨QueryHandle.empty, [("sort", PVal.str "")]⟩ =
      some ⟨QueryHandle.empty.sortQ "-postingDate", [("sort", PVal.str "")]⟩ ∧
    APIFilters.sort ⟨QueryHandle.empty, []⟩ =
      some ⟨QueryHandle.empty.sortQ "-postingDate", []⟩ ∧
    APIFilters.limitFields ⟨QueryHandle.empty, [("fields", PVal.str "")]⟩ =
      some ⟨QueryHandle.empty.select "-__v", [("fields", PVal.str "")]⟩ ∧
    APIFilters.searchByQuery ⟨QueryHandle.empty, [("q", PVal.str "")]⟩ =
      some ⟨QueryHandle.empty, [("q", PVal.str "")]⟩ := by
  refine ⟨?_, ?_, ?_, ?_⟩
  · exact (c10_empty_string_like_absent.1 QueryHandle.empty
      [("sort", PVal.str "")] [] (by decide) (by decide)).1
  · exact (c10_empty_string_like_absent.1 QueryHandle.empty
      [("sort", PVal.str "")] [] (by decide) (by decide)).2
  · exact (c10_empty_string_like_absent.2.1 QueryHandle.empty
      [("fields", PVal.str "")] [] (by decide) (by decide)).1
  · exact (c10_empty_string_like_absent.2.2 QueryHandle.empty
      [("q", PVal.str "")] [] (by decide) (by decide)).1

/-- C4: when `page` or `limit` is absent or fails to parse as a base-10
integer, `pagination()` silently falls back to the defaults page 1 and
limit 10, and never raises an error; an unparseable value such as
`page=abc` behaves exactly like an absent `page`. -/
theorem c4_pagination_defaults (rp : RawParams) :
    ((getParam rp "page" = none ∨
        (∃ s, getParam rp "page" = some (.str s) ∧ jsParseInt10 s = none) ∨
        (∃ l, getParam rp "page" = some (.obj l))) → pageOf rp = 1) ∧
    ((getParam rp "limit" = none ∨
        (∃ s, getParam rp "limit" = some (.str s) ∧ jsParseInt10 s = none) ∨
        (∃ l, getParam rp "limit" = some (.obj l))) → limitOf rp = 10) ∧
    (∀ h : QueryHandle, APIFilters.pagination ⟨h, rp⟩ =
      some ⟨(h.skip ((pageOf rp - 1) * limitOf rp)).limit (limitOf rp), rp⟩) := by
  refine ⟨?_, ?_, ?_⟩
  · rintro (h | ⟨s, hs, hn⟩ | ⟨l, hl⟩)
    · simp [pageOf, parseIntOr, h]
    · simp [pageOf, parseIntOr, hs, hn]
    · simp [pageOf, parseIntOr, hl]
  · rintro (h | ⟨s, hs, hn⟩ | ⟨l, hl⟩)
    · simp [limitOf, parseIntOr, h]
    · simp [limitOf, parseIntOr, hs, hn]
    · simp [limitOf, parseIntOr, hl]
  · intro h
    rfl

theorem c4_pagination_defaults_witness :
    pageOf [("page", PVal.str "abc")] = 1 ∧
    limitOf [("page", PVal.str "abc")] = 10 ∧
    APIFilters.pagination ⟨QueryHandle.empty, [("page", PVal.str "abc")]⟩ =
      some ⟨QueryHandle.limit
        (QueryHandle.skip QueryHandle.empty
          ((pageOf [("page", PVal.str "abc")] - 1) * limitOf [("page", PVal.str "abc")]))
        (limitOf [("page", PVal.str "abc")]),
        [("page", PVal.str "abc")]⟩ :=
  ⟨(c4_pagination_defaults [("page", PVal.str "abc")]).1
      (Or.inr (Or.inl ⟨"abc", by decide, by decide⟩)),
    (c4_pagination_defaults [("page", PVal.str "abc")]).2.1 (Or.inl (by decide)),
    (c4_pagination_defaults [("page", PVal.str "abc")]).2.2 QueryHandle.empty⟩

/-- C2 as stated is false on the code: a `page` or `limit` value that
parses to the integer 0 is falsy in JS, so `parseInt(...) || default`
replaces it with the default instead of passing it through.  At
`page=0, limit=5` the claim predicts skip `(0-1)*5 = -5`, but the code
computes page 1 and skip 0. -/
theorem c2_counterexample :
    jsParseInt10 "0" = some 0 ∧ jsParseInt10 "5" = some 5 ∧
    APIFilters.pagination ⟨QueryHandle.empty,
        [("page", PVal.str "0"), ("limit", PVal.str "5")]⟩ =
      some ⟨⟨[], none, none, some 0, some 5⟩,
        [("page", PVal.str "0"), ("limit", PVal.str "5")]⟩ ∧
    (some (0 : Int) ≠ some (((0 : Int) - 1) * 5)) := by
  refine ⟨by decide, by decide, by decide, by decide⟩

/-- C2 amended: `page` and `limit` values that parse to a *non-zero*
base-10 integer are passed through unvalidated — skip is `(p-1)*l` and
limit is `l`, so a negative page yields a negative skip — while a value
that parses to 0 is falsy and falls back to the default (page 1,
limit 10) exactly like a parse failure. -/
theorem c2_pagination_passthrough (rp : RawParams) (h : QueryHandle)
    (sp sl : String) (p l : Int)
    (hps : getParam rp "page" = some (.str sp))
    (hpp : jsParseInt10 sp = some p) (hp0 : p ≠ 0)
    (hls : getParam rp "limit" = some (.str sl))
    (hll : jsParseInt10 sl = some l) (hl0 : l ≠ 0) :
    pageOf rp = p ∧ limitOf rp = l ∧
    APIFilters.pagination ⟨h, rp⟩ =
      some ⟨(h.skip ((p - 1) * l)).limit l, rp⟩ ∧
    (∀ (rp' : RawParams) (s0 : String), getParam rp' "page" = some (.str s0) →
      jsParseInt10 s0 = some 0 → pageOf rp' = 1) ∧
    (∀ (rp' : RawParams) (s0 : String), getParam rp' "limit" = some (.str s0) →
      jsParseInt10 s0 = some 0 → limitOf rp' = 10) := by
  have hpage : pageOf rp = p := by
    simp [pageOf, parseIntOr, hps, hpp, hp0]
  have hlimit : limitOf rp = l := by
    simp [limitOf, parseIntOr, hls, hll, hl0]
  refine ⟨hpage, hlimit, ?_, ?_, ?_⟩
  · simp [APIFilters.pagination, paginationSt, hpage, hlimit]
  · intro rp' s0 h1 h2
    simp [pageOf, parseIntOr, h1, h2]
  · intro rp' s0 h1 h2
    simp [limitOf, parseIntOr, h1, h2]

theorem c2_pagination_passthrough_witness :
    pageOf [("page", PVal.str "-2"), ("limit", PVal.str "5")] = -2 ∧
    limitOf [("page", PVal.str "-2"), ("limit", PVal.str "5")] = 5 ∧
    APIFilters.pagination ⟨QueryHandle.empty,
        [("page", PVal.str "-2"), ("limit", PVal.str "5")]⟩ =
      some ⟨(QueryHandle.empty.skip (((-2 : Int) - 1) * 5)).limit 5,
        [("page", PVal.str "-2"), ("limit", PVal.str "5")]⟩ ∧
    (∀ (rp' : RawParams) (s0 : String), getParam rp' "page" = some (.str s0) →
      jsParseInt10 s0 = some 0 → pageOf rp' = 1) ∧
    (∀ (rp' : RawParams) (s0 : String), getParam rp' "limit" = some (.str s0) →
      jsParseInt10 s0 = some 0 → limitOf rp' = 10) :=
  c2_pagination_passthrough [("page", PVal.str "-2"), ("limit", PVal.str "5")]
    QueryHandle.empty "-2" "5" (-2) 5 (by decide) (by decide) (by decide)
    (by decide) (by decide) (by decide)

/-- C5: when `q` is present (a non-empty string), `searchByQuery()`
replaces every hyphen in it by a space, wraps the result in literal
double quotes (the exact-phrase marker), and narrows the handle with a
`$text`/`$search` predicate; when `q` is absent the stage returns the
builder unchanged and raises no error. -/
theorem c5_searchByQuery_phrase (af : APIFilters) (s : String)
    (hq : getParam af.queryStr "q" = some (.str s)) (hne : s ≠ "") :
    af.searchByQuery = some ⟨QueryHandle.find af.query
      [("$text", PVal.obj [("$search", "\"" ++ splitJoin '-' ' ' s ++ "\"")])],
      af.queryStr⟩ ∧
    splitJoin '-' ' ' s = ⟨s.data.map fun c => if c = '-' then ' ' else c⟩ ∧
    (∀ af' : APIFilters, getParam af'.queryStr "q" = none →
      af'.searchByQuery = some af') := by
  refine ⟨?_, splitJoin_map '-' ' ' s, ?_⟩
  · simp [APIFilters.searchByQuery, searchSt, hq, hne]
  · intro af' h
    simp [APIFilters.searchByQuery, searchSt, h]

theorem c5_searchByQuery_phrase_witness :
    APIFilters.searchByQuery ⟨QueryHandle.empty, [("q", PVal.str "remote-engineer")]⟩ =
      some ⟨QueryHandle.empty.find
        [("$text", PVal.obj [("$search",
          "\"" ++ splitJoin '-' ' ' "remote-engineer" ++ "\"")])],
        [("q", PVal.str "remote-engineer")]⟩ ∧
    splitJoin '-' ' ' "remote-engineer" =
      ⟨"remote-engineer".data.map fun c => if c = '-' then ' ' else c⟩ ∧
    splitJoin '-' ' ' "remote-engineer" = "remote engineer" := by
  have h := c5_searchByQuery_phrase
    ⟨QueryHandle.empty, [("q", PVal.str "remote-engineer")]⟩ "remote-engineer"
    (by decide) (by decide)
  exact ⟨h.1, h.2.1, by decide⟩

/-- C6: when `sort` is absent, `sort()` applies the default directive
`-postingDate` — ordering by posting date, descending — and no other
stage touches the handle's sort directive. -/
theorem c6_default_sort (af : APIFilters)
    (h : getParam af.queryStr "sort" = none) :
    af.sort = some { af with query := af.query.sortQ "-postingDate" } ∧
    interpSort "-postingDate" = [("postingDate", SortDir.desc)] ∧
    (∀ (st : Stage) (af₁ af₂ : APIFilters), st ≠ Stage.sort →
      runStage st af₁ = some af₂ → af₂.query.sortSpec = af₁.query.sortSpec) := by
  refine ⟨?_, by decide, ?_⟩
  · simp [APIFilters.sort, sortSt, h]
  · intro st af₁ af₂ hst hrun
    cases st with
    | sort => exact absurd rfl hst
    | filter =>
      simp only [runStage, APIFilters.filter, filterSt] at hrun
      cases hf : filterPred af₁.queryStr with
      | some p =>
        rw [hf] at hrun
        simp at hrun
        rw [← hrun]
        rfl
      | none => rw [hf] at hrun; simp at hrun
    | limitFields =>
      simp only [runStage, APIFilters.limitFields, limitFieldsSt] at hrun
      cases hg : getParam af₁.queryStr "fields" with
      | none => rw [hg] at hrun; simp at hrun; rw [← hrun]; rfl
      | some v =>
        rw [hg] at hrun
        cases v with
        | str s =>
          by_cases hs : s = "" <;> simp [hs] at hrun <;> rw [← hrun] <;> rfl
        | obj l => simp at hrun
    | searchByQuery =>
      simp only [runStage, APIFilters.searchByQuery, searchSt] at hrun
      cases hg : getParam af₁.queryStr "q" with
      | none => rw [hg] at hrun; simp at hrun; rw [← hrun]
      | some v =>
        rw [hg] at hrun
        cases v with
        | str s =>
          by_cases hs : s = "" <;> simp [hs] at hrun <;> rw [← hrun] <;> rfl
        | obj l => simp at hrun
    | pagination =>
      simp only [runStage, APIFilters.pagination, paginationSt] at hrun
      simp at hrun
      rw [← hrun]
      rfl

theorem c6_default_sort_witness :
    APIFilters.sort ⟨QueryHandle.empty, [("page", PVal.str "2")]⟩ =
      some ⟨QueryHandle.empty.sortQ "-postingDate", [("page", PVal.str "2")]⟩ ∧
    interpSort "-postingDate" = [("postingDate", SortDir.desc)] := by
  have h := c6_default_sort ⟨QueryHandle.empty, [("page", PVal.str "2")]⟩ (by decide)
  exact ⟨h.1, h.2.1⟩

/-- C3: `filter()` ignores the reserved control keys `sort`, `fields`,
`q`, `limit`, `page`: every clause of the resulting predicate originates
from a non-reserved key, and when only reserved keys are present the
predicate is the empty (match-all) object. -/
theorem c3_filter_ignores_reserved (rp : RawParams) (q : QueryHandle) :
    (plainParams rp = true →
      filterPred rp = some (rwObj (removeReserved rp)) ∧
      (∀ kv ∈ rwObj (removeReserved rp), ∃ k₀ v₀, (k₀, v₀) ∈ rp ∧
        reservedKeys.contains k₀ = false ∧ kv = (rwS k₀, rwVal v₀))) ∧
    ((∀ kv ∈ rp, reservedKeys.contains kv.1 = true) →
      filterPred rp = some [] ∧
      APIFilters.filter ⟨q, rp⟩ = some ⟨q.find [], rp⟩) := by
  constructor
  · intro hp
    refine ⟨filterPred_plain hp, ?_⟩
    intro kv hkv
    obtain ⟨⟨k₀, v₀⟩, hmem, rfl⟩ := List.mem_map.mp hkv
    have hfil := List.mem_filter.mp hmem
    refine ⟨k₀, v₀, hfil.1, ?_, rfl⟩
    have h2 := hfil.2
    simpa using h2
  · intro hall
    have hrem : removeReserved rp = [] := by
      unfold removeReserved
      rw [List.filter_eq_nil_iff]
      intro p hp
      simpa using hall p hp
    have hfp : filterPred rp = some [] := by
      unfold filterPred
      rw [hrem]
      decide
    exact ⟨hfp, by simp [APIFilters.filter, filterSt, hfp]⟩

theorem c3_filter_ignores_reserved_witness :
    filterPred [("sort", PVal.str "x"), ("page", PVal.str "2")] = some [] ∧
    APIFilters.filter ⟨QueryHandle.empty, [("sort", PVal.str "x"), ("page", PVal.str "2")]⟩ =
      some ⟨QueryHandle.empty.find [], [("sort", PVal.str "x"), ("page", PVal.str "2")]⟩ :=
  (c3_filter_ignores_reserved [("sort", PVal.str "x"), ("page", PVal.str "2")]
    QueryHandle.empty).2 (by decide)

/-- C1: a nested comparison-operator key (`gt`, `gte`, `lt`, `lte`,
`in`) under a field name is rewritten to the engine operator (`$`-sigil
prefix) as a whole token — `gte` becomes `$gte`, not `$gt` + `e` — and
the resulting predicate narrows the handle via `find`; no clause of the
predicate, outer or nested, carries the literal field name `gte`. -/
theorem c1_filter_operator_rewrite (rp : RawParams) (q : QueryHandle) (f op v : String)
    (hplain : plainParams rp = true)
    (hmem : (f, PVal.obj [(op, v)]) ∈ rp)
    (hres : reservedKeys.contains f = false)
    (hop : op = "gt" ∨ op = "gte" ∨ op = "lt" ∨ op = "lte" ∨ op = "in")
    (hf : rwS f = f) (hv : rwS v = v) :
    ∃ p, filterPred rp = some p ∧
      APIFilters.filter ⟨q, rp⟩ = some ⟨q.find p, rp⟩ ∧
      (f, PVal.obj [("$" ++ op, v)]) ∈ p ∧
      ∀ kv ∈ p, kv.1 ≠ "gte" ∧
        ∀ l, kv.2 = PVal.obj l → ∀ ikv ∈ l, ikv.1 ≠ "gte" := by
  have hfp := filterPred_plain hplain
  refine ⟨rwObj (removeReserved rp), hfp, ?_, ?_, ?_⟩
  · simp [APIFilters.filter, filterSt, hfp]
  · have hmem' : (f, PVal.obj [(op, v)]) ∈ removeReserved rp :=
      List.mem_filter.mpr ⟨hmem, by simpa using hres⟩
    have himg : (rwS f, rwVal (PVal.obj [(op, v)])) ∈ rwObj (removeReserved rp) :=
      List.mem_map.mpr ⟨(f, PVal.obj [(op, v)]), hmem', rfl⟩
    have hopeq : rwS op = "$" ++ op := by
      rcases hop with h | h | h | h | h <;> subst h <;> decide
    simpa [rwVal, hf, hv, hopeq] using himg
  · intro kv hkv
    obtain ⟨⟨k₀, v₀⟩, hm, rfl⟩ := List.mem_map.mp hkv
    refine ⟨rwS_ne_gte k₀, ?_⟩
    intro l hl ikv hikv
    cases v₀ with
    | str s => simp [rwVal] at hl
    | obj l₀ =>
      simp only [rwVal] at hl
      injection hl with hl'
      subst hl'
      obtain ⟨⟨x, y⟩, hxy, rfl⟩ := List.mem_map.mp hikv
      exact rwS_ne_gte x

theorem c1_filter_operator_rewrite_witness :
    ∃ p, filterPred [("price", PVal.obj [("gte", "50")])] = some p ∧
      APIFilters.filter ⟨QueryHandle.empty, [("price", PVal.obj [("gte", "50")])]⟩ =
        some ⟨QueryHandle.empty.find p, [("price", PVal.obj [("gte", "50")])]⟩ ∧
      ("price", PVal.obj [("$" ++ "gte", "50")]) ∈ p ∧
      ∀ kv ∈ p, kv.1 ≠ "gte" ∧
        ∀ l, kv.2 = PVal.obj l → ∀ ikv ∈ l, ikv.1 ≠ "gte" :=
  c1_filter_operator_rewrite [("price", PVal.obj [("gte", "50")])]
    QueryHandle.empty "price" "gte" "50" (by decide) (by decide) (by decide)
    (Or.inr (Or.inl rfl)) (by decide) (by decide)

/-- C7: with `fields=a,b`, `limitFields()` applies the inclusion
projection `a b`; under the engine's projection semantics the executed
records expose exactly the fields `a`, `b` and the identifier `_id`.
With `fields` absent, it applies the exclusion projection `-__v`,
hiding only the internal versioning field. -/
theorem c7_limitFields_projection (af : APIFilters) (a b : String)
    (hf : getParam af.queryStr "fields" = some (.str (a ++ "," ++ b)))
    (ha : a.data ≠ []) (hb : b.data ≠ [])
    (hac : ∀ c ∈ a.data, c ≠ ',' ∧ c ≠ ' ')
    (hbc : ∀ c ∈ b.data, c ≠ ',' ∧ c ≠ ' ')
    (had : a.data.head? ≠ some '-') (hbd : b.data.head? ≠ some '-') :
    af.limitFields = some ⟨QueryHandle.select af.query (a ++ " " ++ b), af.queryStr⟩ ∧
    interpSelect (a ++ " " ++ b) = Projection.incl [a, b] ∧
    (∀ (recF : List String) (f : String),
      f ∈ exposedFields (Projection.incl [a, b]) recF ↔
        f ∈ recF ∧ (f = a ∨ f = b ∨ f = "_id")) ∧
    (∀ af' : APIFilters, getParam af'.queryStr "fields" = none →
      af'.limitFields = some ⟨QueryHandle.select af'.query "-__v", af'.queryStr⟩ ∧
      interpSelect "-__v" = Projection.excl ["__v"]) := by
  have hdata1 : (a ++ "," ++ b).data = a.data ++ ',' :: b.data := by
    rw [sappend_data, sappend_data]
    simp
  have hdata2 : (a ++ " " ++ b).data = a.data ++ ' ' :: b.data := by
    rw [sappend_data, sappend_data]
    simp
  have hsne : (a ++ "," ++ b) ≠ "" := by
    intro he
    have hd := congrArg String.data he
    rw [hdata1] at hd
    simp at hd
  have hsplit1 : splitOnChar ',' ((a ++ "," ++ b).data) = [a.data, b.data] := by
    rw [hdata1]
    exact splitOnChar_single b.data (fun c hc => (hac c hc).1) (fun c hc => (hbc c hc).1)
  have hsplit2 : splitOnChar ' ' ((a ++ " " ++ b).data) = [a.data, b.data] := by
    rw [hdata2]
    exact splitOnChar_single b.data (fun c hc => (hac c hc).2) (fun c hc => (hbc c hc).2)
  have hsj : splitJoin ',' ' ' (a ++ "," ++ b) = a ++ " " ++ b := by
    unfold splitJoin
    rw [hsplit1]
    have : joinChar ' ' [a.data, b.data] = a.data ++ ' ' :: b.data := by
      simp [joinChar]
    rw [this, ← hdata2]
  have hinterp : interpSelect (a ++ " " ++ b) = Projection.incl [a, b] := by
    unfold interpSelect
    rw [hsplit2]
    have hea : a.data.isEmpty = false := by
      simpa using ha
    have heb : b.data.isEmpty = false := by
      simpa using hb
    have hba : (a.data.head? == some '-') = false := by
      rw [beq_eq_false_iff_ne]
      exact had
    have hbb : (b.data.head? == some '-') = false := by
      rw [beq_eq_false_iff_ne]
      exact hbd
    simp [hea, heb, hba, hbb]
  refine ⟨?_, hinterp, ?_, ?_⟩
  · simp [APIFilters.limitFields, limitFieldsSt, hf, hsne, hsj]
  · intro recF f
    unfold exposedFields
    rw [List.mem_filter]
    constructor
    · rintro ⟨h1, h2⟩
      refine ⟨h1, ?_⟩
      simp only [Bool.or_eq_true, beq_iff_eq, List.elem_iff,
        List.mem_cons, List.mem_singleton] at h2
      tauto
    · rintro ⟨h1, h2⟩
      refine ⟨h1, ?_⟩
      simp only [Bool.or_eq_true, beq_iff_eq, List.elem_iff,
        List.mem_cons, List.mem_singleton]
      tauto
  · intro af' h
    exact ⟨by simp [APIFilters.limitFields, limitFieldsSt, h], by decide⟩

theorem c7_limitFields_projection_witness :
    APIFilters.limitFields ⟨QueryHandle.empty, [("fields", PVal.str "title,salary")]⟩ =
      some ⟨QueryHandle.select QueryHandle.empty ("title" ++ " " ++ "salary"),
        [("fields", PVal.str "title,salary")]⟩ ∧
    interpSelect ("title" ++ " " ++ "salary") = Projection.incl ["title", "salary"] ∧
    (∀ f : String,
      f ∈ exposedFields (Projection.incl ["title", "salary"])
          ["title", "salary", "_id", "__v", "postingDate"] ↔
        f ∈ ["title", "salary", "_id", "__v", "postingDate"] ∧
          (f = "title" ∨ f = "salary" ∨ f = "_id")) ∧
    APIFilters.limitFields ⟨QueryHandle.empty, []⟩ =
      some ⟨QueryHandle.select QueryHandle.empty "-__v", []⟩ ∧
    interpSelect "-__v" = Projection.excl ["__v"] := by
  have h := c7_limitFields_projection
    ⟨QueryHandle.empty, [("fields", PVal.str "title,salary")]⟩ "title" "salary"
    (by decide) (by decide) (by decide) (by decide) (by decide) (by decide)
    (by decide)
  refine ⟨h.1, h.2.1, ?_, ?_, ?_⟩
  · intro f
    exact h.2.2.1 ["title", "salary", "_id", "__v", "postingDate"] f
  · exact (h.2.2.2 ⟨QueryHandle.empty, []⟩ (by decide)).1
  · exact (h.2.2.2 ⟨QueryHandle.empty, []⟩ (by decide)).2
